import Mathlib

/-!
# Verification of the auto-flavor aggregation engine

Shallow embedding of `internal/aggregator/aggregator.go` (together with the
data model of `internal/signals/types.go`) and proofs about it.

Modelling conventions:
* Go `float64` arithmetic is modelled exactly by `ℚ`; every constant in the
  scorer (0.85, 0.95, 0.05, …) is an exact decimal, so comparisons and the
  threshold ratio are faithful up to float rounding, which is not modelled.
* Go `time.Time` values are modelled as rational "days since the zero time";
  `t1.After(t2)` becomes `t2 < t1`, `now.Sub(t).Hours()/24` becomes `now - t`,
  and the zero `time.Time` is `0`.
* Go maps keyed by strings are modelled as association lists in first-insertion
  order.  Go's map iteration order is unspecified (randomized); wherever a
  result can depend on it, the aggregation is additionally exposed as a
  function of an explicit group iteration order (`aggregateFromGroups`).
* `sort.Slice`/`sort.Float64s` are modelled by `List.insertionSort`, a correct
  comparison sort.  Go's sort is unstable, so on ties the model fixes one of
  the outcomes Go may produce.
* Functions that would panic in Go on an empty slice (`buildPreference`)
  return an `Option` and yield `none` there.
-/

namespace AutoFlavor

/-- `type Strength string` in `internal/signals/types.go`. -/
abbrev Strength := String

/-- `StrengthExplicit` constant. -/
def StrengthExplicit : Strength := "explicit"

/-- `StrengthInferred` constant. -/
def StrengthInferred : Strength := "inferred"

/-- The keys of the `ValidCategories` map in `internal/signals/types.go`. -/
def validCategories : List String :=
  ["code_style", "architecture", "tooling", "version_control",
   "communication", "prohibition", "stack"]

/-- `Category.IsValid` from `internal/signals/types.go`: membership in the
`ValidCategories` map. -/
def IsValidCategory (c : String) : Prop := c ∈ validCategories

instance (c : String) : Decidable (IsValidCategory c) :=
  inferInstanceAs (Decidable (c ∈ validCategories))

/-- `Signal` from `internal/signals/types.go`. -/
structure Signal where
  category : String
  title : String
  description : String
  strength : Strength
  timestamp : ℚ
  context : String
  deriving DecidableEq, Repr

/-- `Preference` from `internal/signals/types.go`. -/
structure Preference where
  category : String
  title : String
  description : String
  confidence : ℚ
  signalCount : ℕ
  firstSeen : ℚ
  lastSeen : ℚ
  deriving DecidableEq, Repr

/-- `ConflictValue` from `internal/signals/types.go`. -/
structure ConflictValue where
  description : String
  timestamp : ℚ
  signalCount : ℕ
  strength : ℚ
  deriving DecidableEq, Repr

/-- `ConflictingPreference` from `internal/signals/types.go`. -/
structure ConflictingPreference where
  category : String
  title : String
  values : List ConflictValue
  deriving DecidableEq, Repr

/-- `TimeRange` from `internal/signals/types.go` (`End` is a Lean keyword,
so the field is called `stop`). -/
structure TimeRange where
  start : ℚ
  stop : ℚ
  deriving DecidableEq, Repr

/-- `FlavorProfile` from `internal/signals/types.go`. -/
structure FlavorProfile where
  createdAt : ℚ
  analyzedMessages : ℕ
  timeRange : TimeRange
  preferences : List Preference
  conflicts : List ConflictingPreference
  deriving DecidableEq, Repr

/-- `Config` from `internal/aggregator/aggregator.go`.  The Go fields are
`int`s; the spec constrains them to be non-negative, so they are `ℕ` here. -/
structure Config where
  minSignalCount : ℕ
  conflictThreshold : ℚ
  recentDays : ℕ
  staleDays : ℕ
  deriving DecidableEq, Repr

/-- `DefaultConfig` from `internal/aggregator/aggregator.go`. -/
def DefaultConfig : Config :=
  { minSignalCount := 1, conflictThreshold := 0.3, recentDays := 7, staleDays := 30 }

/-! ## Grouping (`groupSignals`, `groupByDescription`)

Go builds a `map[string][]signals.Signal`, appending each signal to the slice
for its key.  The map is modelled as an association list whose entries appear
in first-insertion order. -/

/-- Insert one signal into the association list modelling the Go map:
append to the entry for `k`, or create a new entry at the end. -/
def insertGrouped (k : String) (s : Signal) :
    List (String × List Signal) → List (String × List Signal)
  | [] => [(k, [s])]
  | e :: rest =>
    if e.1 = k then (e.1, e.2 ++ [s]) :: rest else e :: insertGrouped k s rest

/-- The generic grouping loop shared by `groupSignals` and
`groupByDescription` in the Go source. -/
def groupByKey (f : Signal → String) (sigs : List Signal) :
    List (String × List Signal) :=
  sigs.foldl (fun gs s => insertGrouped (f s) s gs) []

/-- The group key `string(sig.Category) + "::" + sig.Title` of `groupSignals`. -/
def groupKey (s : Signal) : String := s.category ++ "::" ++ s.title

/-- `groupSignals` from `internal/aggregator/aggregator.go`. -/
def groupSignals (sigs : List Signal) : List (String × List Signal) :=
  groupByKey groupKey sigs

/-- `groupByDescription` from `internal/aggregator/aggregator.go`. -/
def groupByDescription (sigs : List Signal) : List (String × List Signal) :=
  groupByKey (fun s => s.description) sigs

/-! ## Scorer (`calculateGroupScore`, `frequencyToConfidence`, `recencyModifier`) -/

/-- `frequencyToConfidence` from `internal/aggregator/aggregator.go`. -/
def frequencyToConfidence (count : ℕ) : ℚ :=
  if 11 ≤ count then 0.85
  else if 6 ≤ count then 0.7
  else if 3 ≤ count then 0.5
  else 0.3

/-- `recencyModifier` from `internal/aggregator/aggregator.go`:
`daysSince := now.Sub(timestamp).Hours() / 24` is `now - timestamp` in the
days-valued time model. -/
def recencyModifier (cfg : Config) (now timestamp : ℚ) : ℚ :=
  let daysSince := now - timestamp
  if daysSince ≤ (cfg.recentDays : ℚ) then 0.05
  else if (cfg.staleDays : ℚ) ≤ daysSince then -0.1
  else 0

/-- The `mostRecent` loop of `calculateGroupScore`: a fold starting from the
zero `time.Time` (modelled as `0`), updating whenever
`sig.Timestamp.After(mostRecent)`. -/
def mostRecentTs (sigs : List Signal) : ℚ :=
  sigs.foldl (fun acc s => if acc < s.timestamp then s.timestamp else acc) 0

/-- `calculateGroupScore` from `internal/aggregator/aggregator.go`. -/
def calculateGroupScore (cfg : Config) (now : ℚ) (sigs : List Signal) : ℚ :=
  let baseConfidence := frequencyToConfidence sigs.length
  let hasExplicit := sigs.any (fun s => s.strength == StrengthExplicit)
  let baseConfidence := if hasExplicit then 0.95 else baseConfidence
  let modifier := recencyModifier cfg now (mostRecentTs sigs)
  let confidence := baseConfidence + modifier
  let confidence := if 1 < confidence then 1 else confidence
  if confidence < 0.1 then 0.1 else confidence

/-! ## Resolver (`hasConflict`, `aggregateGroup`) -/

/-- The per-cohort score list of `hasConflict` (one score per entry of the
description map, in the model's entry order). -/
def cohortScores (cfg : Config) (now : ℚ)
    (descGroups : List (String × List Signal)) : List ℚ :=
  descGroups.map (fun e => calculateGroupScore cfg now e.2)

/-- `hasConflict` from `internal/aggregator/aggregator.go`.  Go sorts the
scores ascending with `sort.Float64s` and reads `scores[len-1]` and
`scores[len-2]`; the model sorts ascending and reads the first two entries of
the reversed list, which is the same pair of values. -/
def hasConflict (cfg : Config) (now : ℚ)
    (descGroups : List (String × List Signal)) : Bool :=
  if descGroups.length ≤ 1 then false
  else
    match ((cohortScores cfg now descGroups).insertionSort (· ≤ ·)).reverse with
    | topScore :: secondScore :: _ =>
      if topScore = 0 then false
      else decide (cfg.conflictThreshold ≤ secondScore / topScore)
    | _ => false

/-- The `sort.Slice` call ordering signals by timestamp descending
(`Timestamp.After`), used by `buildPreference` and `buildConflict`. -/
def sortByTimestampDesc (sigs : List Signal) : List Signal :=
  sigs.insertionSort (fun a b => b.timestamp ≤ a.timestamp)

/-- `buildPreference` from `internal/aggregator/aggregator.go`.  Go indexes
`sigs[0]` and `sigs[len(sigs)-1]` of the descending-sorted slice (panicking on
an empty slice, hence the `Option`). -/
def buildPreference (cfg : Config) (now : ℚ) (sigs : List Signal) :
    Option Preference :=
  match sortByTimestampDesc sigs with
  | [] => none
  | mostRecent :: rest =>
    let oldest := rest.getLastD mostRecent
    some
      { category := mostRecent.category
        title := mostRecent.title
        description := mostRecent.description
        confidence := calculateGroupScore cfg now (mostRecent :: rest)
        signalCount := (mostRecent :: rest).length
        firstSeen := oldest.timestamp
        lastSeen := mostRecent.timestamp }

/-- The loop body of `buildConflict`: one `ConflictValue` per description
cohort, skipping empty cohorts exactly as the Go `continue` does. -/
def conflictStep (cfg : Config) (now : ℚ) (vs : List ConflictValue)
    (e : String × List Signal) : List ConflictValue :=
  match sortByTimestampDesc e.2 with
  | [] => vs
  | mostRecent :: rest =>
    vs ++ [{ description := e.1
             timestamp := mostRecent.timestamp
             signalCount := (mostRecent :: rest).length
             strength := calculateGroupScore cfg now (mostRecent :: rest)
             : ConflictValue }]

/-- `buildConflict` from `internal/aggregator/aggregator.go`: one
`ConflictValue` per description cohort (skipping empty ones, as the Go
`continue` does), then the values are sorted by timestamp descending. -/
def buildConflict (cfg : Config) (now : ℚ) (category title : String)
    (descGroups : List (String × List Signal)) : ConflictingPreference :=
  { category := category
    title := title
    values := (descGroups.foldl (conflictStep cfg now) []).insertionSort
      (fun a b => b.timestamp ≤ a.timestamp) }

/-- `aggregateGroup` from `internal/aggregator/aggregator.go`.  The result
models the Go pair `(*signals.Preference, *signals.ConflictingPreference)`
with `none` for `nil`.  When the conflict branch is taken the group is
necessarily non-empty (it has at least two description cohorts), so the head
match is exhaustive exactly where Go reads `sigs[0]`. -/
def aggregateGroup (cfg : Config) (now : ℚ) (sigs : List Signal) :
    Option Preference × Option ConflictingPreference :=
  if sigs.length < cfg.minSignalCount then (none, none)
  else
    let descGroups := groupByDescription sigs
    match sigs with
    | [] => (buildPreference cfg now sigs, none)
    | s0 :: _ =>
      if 1 < descGroups.length ∧ hasConflict cfg now descGroups
      then (none, some (buildConflict cfg now s0.category s0.title descGroups))
      else (buildPreference cfg now sigs, none)

/-! ## Profile Assembler (`Aggregate`, `sortByConfidence`) -/

/-- The body of `Aggregate`, with the iteration order over the grouping map
made explicit: `grouped` is the list of `(key, signals)` entries in the order
Go's `range` happens to visit them.  `sortByConfidence` (Preferences by
confidence descending) is applied at the end; Conflicts are left in iteration
order, exactly as in the Go source. -/
def aggregateFromGroups (cfg : Config) (now : ℚ) (sigs : List Signal)
    (grouped : List (String × List Signal)) : FlavorProfile :=
  let timeRange : TimeRange :=
    match sigs with
    | [] => { start := 0, stop := 0 }
    | s :: rest => { start := s.timestamp, stop := (rest.getLastD s).timestamp }
  let pc := grouped.foldl
    (fun (acc : List Preference × List ConflictingPreference) e =>
      match aggregateGroup cfg now e.2 with
      | (_, some conflict) => (acc.1, acc.2 ++ [conflict])
      | (some pref, none) => (acc.1 ++ [pref], acc.2)
      | (none, none) => acc) ([], [])
  { createdAt := now
    analyzedMessages := sigs.length
    timeRange := timeRange
    preferences := pc.1.insertionSort (fun a b => b.confidence ≤ a.confidence)
    conflicts := pc.2 }

/-- `Aggregate` from `internal/aggregator/aggregator.go`, with the map
iterated in first-insertion order. -/
def Aggregate (cfg : Config) (now : ℚ) (sigs : List Signal) : FlavorProfile :=
  aggregateFromGroups cfg now sigs (groupSignals sigs)

/-! ## Specification-side quantities

These definitions phrase, in the claims' vocabulary, "maximum / minimum
timestamp" and "the two largest cohort scores"; the theorems relate them to
the source-translated functions above. -/

/-- Maximum of a list of rationals (`0` for the empty list). -/
def maxD : List ℚ → ℚ
  | [] => 0
  | x :: xs => xs.foldl max x

/-- Minimum of a list of rationals (`0` for the empty list). -/
def minD : List ℚ → ℚ
  | [] => 0
  | x :: xs => xs.foldl min x

/-- The largest cohort score of a group, in the claims' vocabulary. -/
def topHighest (cfg : Config) (now : ℚ) (sigs : List Signal) : ℚ :=
  maxD (cohortScores cfg now (groupByDescription sigs))

/-- The second largest cohort score of a group (largest after removing one
copy of the maximum), in the claims' vocabulary. -/
def secondHighest (cfg : Config) (now : ℚ) (sigs : List Signal) : ℚ :=
  maxD ((cohortScores cfg now (groupByDescription sigs)).erase
        (topHighest cfg now sigs))

/-! ## Lemmas on list maxima and minima -/

theorem foldl_max_le {l : List ℚ} {a b : ℚ} (ha : a ≤ b)
    (hl : ∀ x ∈ l, x ≤ b) : l.foldl max a ≤ b := by
  induction l generalizing a with
  | nil => simpa using ha
  | cons x xs ih =>
    simp only [List.foldl_cons]
    exact ih (max_le ha (hl x (by simp))) (fun y hy => hl y (by simp [hy]))

theorem le_foldl_max_init (l : List ℚ) (a : ℚ) : a ≤ l.foldl max a := by
  induction l generalizing a with
  | nil => simp
  | cons x xs ih => exact le_trans (le_max_left a x) (ih (max a x))

theorem le_foldl_max_of_mem {l : List ℚ} {x : ℚ} (hx : x ∈ l) (a : ℚ) :
    x ≤ l.foldl max a := by
  induction l generalizing a with
  | nil => cases hx
  | cons y ys ih =>
    rcases List.mem_cons.mp hx with rfl | h
    · exact le_trans (le_max_right a x) (le_foldl_max_init ys (max a x))
    · exact ih h (max a y)

theorem foldl_max_init_mono {a b : ℚ} (l : List ℚ) (h : a ≤ b) :
    l.foldl max a ≤ l.foldl max b := by
  induction l generalizing a b with
  | nil => simpa using h
  | cons x xs ih => exact ih (max_le_max h le_rfl)

theorem foldl_max_mem (l : List ℚ) (a : ℚ) :
    l.foldl max a = a ∨ l.foldl max a ∈ l := by
  induction l generalizing a with
  | nil => exact Or.inl rfl
  | cons x xs ih =>
    simp only [List.foldl_cons]
    rcases ih (max a x) with h | h
    · rcases le_total a x with hax | hax
      · rw [h, max_eq_right hax]; exact Or.inr (by simp)
      · rw [h, max_eq_left hax]; exact Or.inl rfl
    · exact Or.inr (by simp [h])

theorem maxD_mem {l : List ℚ} (h : l ≠ []) : maxD l ∈ l := by
  match l with
  | x :: xs =>
    simp only [maxD]
    rcases foldl_max_mem xs x with h' | h'
    · simp [h']
    · simp [h']

theorem le_maxD {l : List ℚ} {x : ℚ} (hx : x ∈ l) : x ≤ maxD l := by
  match l with
  | y :: ys =>
    simp only [maxD]
    rcases List.mem_cons.mp hx with rfl | h
    · exact le_foldl_max_init ys x
    · exact le_foldl_max_of_mem h y

theorem maxD_eq {l : List ℚ} {a : ℚ} (ha : a ∈ l) (hbound : ∀ x ∈ l, x ≤ a) :
    maxD l = a :=
  le_antisymm (hbound _ (maxD_mem (by rintro rfl; cases ha)))
    (le_maxD ha)

theorem maxD_perm {l₁ l₂ : List ℚ} (h : l₁.Perm l₂) : maxD l₁ = maxD l₂ := by
  rcases e : l₁ with _ | ⟨x, xs⟩
  · rw [e] at h; rw [h.nil_eq.symm]
  · rw [← e]
    have hne : l₁ ≠ [] := by simp [e]
    exact (maxD_eq (h.mem_iff.mp (maxD_mem hne))
      (fun y hy => le_maxD (h.mem_iff.mpr hy))).symm

theorem foldl_min_init_le (l : List ℚ) (a : ℚ) : l.foldl min a ≤ a := by
  induction l generalizing a with
  | nil => simp
  | cons x xs ih => exact le_trans (ih (min a x)) (min_le_left a x)

theorem foldl_min_le_of_mem {l : List ℚ} {x : ℚ} (hx : x ∈ l) (a : ℚ) :
    l.foldl min a ≤ x := by
  induction l generalizing a with
  | nil => cases hx
  | cons y ys ih =>
    rcases List.mem_cons.mp hx with rfl | h
    · exact le_trans (foldl_min_init_le ys (min a x)) (min_le_right a x)
    · exact ih h (min a y)

theorem foldl_min_mem (l : List ℚ) (a : ℚ) :
    l.foldl min a = a ∨ l.foldl min a ∈ l := by
  induction l generalizing a with
  | nil => exact Or.inl rfl
  | cons x xs ih =>
    simp only [List.foldl_cons]
    rcases ih (min a x) with h | h
    · rcases le_total a x with hax | hax
      · rw [h, min_eq_left hax]; exact Or.inl rfl
      · rw [h, min_eq_right hax]; exact Or.inr (by simp)
    · exact Or.inr (by simp [h])

theorem minD_mem {l : List ℚ} (h : l ≠ []) : minD l ∈ l := by
  match l with
  | x :: xs =>
    simp only [minD]
    rcases foldl_min_mem xs x with h' | h'
    · simp [h']
    · simp [h']

theorem minD_le {l : List ℚ} {x : ℚ} (hx : x ∈ l) : minD l ≤ x := by
  match l with
  | y :: ys =>
    simp only [minD]
    rcases List.mem_cons.mp hx with rfl | h
    · exact foldl_min_init_le ys x
    · exact foldl_min_le_of_mem h y

theorem minD_eq {l : List ℚ} {a : ℚ} (ha : a ∈ l) (hbound : ∀ x ∈ l, a ≤ x) :
    minD l = a :=
  le_antisymm (minD_le ha)
    (hbound _ (minD_mem (by rintro rfl; cases ha)))

/-! ## Lemmas about the Scorer -/

theorem mostRecentTs_eq_foldl_max (sigs : List Signal) :
    mostRecentTs sigs = (sigs.map (fun s => s.timestamp)).foldl max 0 := by
  have step : ∀ (acc : ℚ) (s : Signal),
      (if acc < s.timestamp then s.timestamp else acc) = max acc s.timestamp := by
    intro acc s
    rcases lt_or_le acc s.timestamp with h | h
    · rw [if_pos h, max_eq_right h.le]
    · rw [if_neg (not_lt.mpr h), max_eq_left h]
  show List.foldl _ 0 sigs = _
  generalize (0 : ℚ) = a
  induction sigs generalizing a with
  | nil => rfl
  | cons s rest ih =>
    simp only [List.foldl_cons, List.map_cons]
    rw [ih, step]

theorem mostRecentTs_eq_maxD {sigs : List Signal} (hne : sigs ≠ [])
    (hnn : ∀ s ∈ sigs, 0 ≤ s.timestamp) :
    mostRecentTs sigs = maxD (sigs.map (fun s => s.timestamp)) := by
  match sigs with
  | s :: rest =>
    rw [mostRecentTs_eq_foldl_max]
    simp only [List.map_cons, List.foldl_cons, maxD]
    rw [max_eq_right (hnn s (by simp))]

theorem le_mostRecentTs {sigs : List Signal} {s : Signal} (hs : s ∈ sigs) :
    s.timestamp ≤ mostRecentTs sigs := by
  rw [mostRecentTs_eq_foldl_max]
  exact le_foldl_max_of_mem (List.mem_map_of_mem _ hs) 0

/-- The two clamping `if`s at the end of `calculateGroupScore` are the clamp
to `[0.1, 1]`. -/
theorem clamp_eq (x : ℚ) :
    (if (if 1 < x then 1 else x) < 0.1 then (0.1 : ℚ)
     else if 1 < x then 1 else x) = max 0.1 (min 1 x) := by
  rcases lt_or_le 1 x with h1 | h1
  · rw [if_pos h1, min_eq_left h1.le, if_neg (by norm_num), max_eq_right (by norm_num)]
  · rw [if_neg (not_lt.mpr h1), min_eq_right h1]
    rcases lt_or_le x 0.1 with h2 | h2
    · rw [if_pos h2, max_eq_left h2.le]
    · rw [if_neg (not_lt.mpr h2), max_eq_right h2]

theorem calculateGroupScore_eq (cfg : Config) (now : ℚ) (sigs : List Signal) :
    calculateGroupScore cfg now sigs =
      max 0.1 (min 1
        ((if sigs.any (fun s => s.strength == StrengthExplicit) then 0.95
          else frequencyToConfidence sigs.length) +
         recencyModifier cfg now (mostRecentTs sigs))) := by
  unfold calculateGroupScore
  exact clamp_eq _

theorem calculateGroupScore_bounds (cfg : Config) (now : ℚ) (sigs : List Signal) :
    0.1 ≤ calculateGroupScore cfg now sigs ∧ calculateGroupScore cfg now sigs ≤ 1 := by
  rw [calculateGroupScore_eq]
  constructor
  · exact le_max_left _ _
  · exact max_le (by norm_num) (min_le_left _ _)

theorem calculateGroupScore_pos (cfg : Config) (now : ℚ) (sigs : List Signal) :
    0 < calculateGroupScore cfg now sigs :=
  lt_of_lt_of_le (by norm_num) (calculateGroupScore_bounds cfg now sigs).1

theorem frequencyToConfidence_mono {m n : ℕ} (h : m ≤ n) :
    frequencyToConfidence m ≤ frequencyToConfidence n := by
  unfold frequencyToConfidence
  split_ifs <;> first | omega | norm_num

theorem frequencyToConfidence_le (n : ℕ) : frequencyToConfidence n ≤ 0.95 := by
  unfold frequencyToConfidence
  split_ifs <;> norm_num

theorem recencyModifier_mono (cfg : Config) (now : ℚ) {t t' : ℚ} (h : t ≤ t') :
    recencyModifier cfg now t ≤ recencyModifier cfg now t' := by
  simp only [recencyModifier]
  split_ifs <;> linarith

theorem clamp_mono {x y : ℚ} (h : x ≤ y) :
    max 0.1 (min 1 x) ≤ max 0.1 (min 1 y) :=
  max_le_max le_rfl (min_le_min le_rfl h)

/-- Base confidence (bucket, possibly overridden by the explicit bonus) is
monotone in evidence: more signals and explicit presence never lower it. -/
theorem base_mono {e e' : Bool} {m n : ℕ} (he : e = true → e' = true) (h : m ≤ n) :
    (if e then (0.95 : ℚ) else frequencyToConfidence m) ≤
    (if e' then 0.95 else frequencyToConfidence n) := by
  cases e with
  | false =>
    cases e' with
    | false => simpa using frequencyToConfidence_mono h
    | true => simpa using frequencyToConfidence_le m
  | true => simp [he rfl]

/-- Inserting one extra signal anywhere in a group never lowers the score. -/
theorem calculateGroupScore_insert_mono (cfg : Config) (now : ℚ)
    (l₁ l₂ : List Signal) (s : Signal) :
    calculateGroupScore cfg now (l₁ ++ l₂) ≤
    calculateGroupScore cfg now (l₁ ++ s :: l₂) := by
  rw [calculateGroupScore_eq, calculateGroupScore_eq]
  apply clamp_mono
  apply add_le_add
  · apply base_mono
    · intro he
      rcases List.any_eq_true.mp he with ⟨x, hx, hpx⟩
      exact List.any_eq_true.mpr ⟨x, by
        rcases List.mem_append.mp hx with h | h
        · exact ⟨List.mem_append.mpr (Or.inl h), hpx⟩
        · exact ⟨List.mem_append.mpr (Or.inr (List.mem_cons_of_mem s h)), hpx⟩⟩
    · simp only [List.length_append, List.length_cons]
      omega
  · apply recencyModifier_mono
    rw [mostRecentTs_eq_foldl_max, mostRecentTs_eq_foldl_max]
    simp only [List.map_append, List.foldl_append, List.map_cons, List.foldl_cons]
    exact foldl_max_init_mono _ (le_max_left _ _)

/-- Replacing any one signal by one with the same strength and a timestamp at
least as late as the whole group's most recent one never lowers the score. -/
theorem calculateGroupScore_fresher_mono (cfg : Config) (now : ℚ)
    (l₁ l₂ : List Signal) (s s' : Signal)
    (hstr : s'.strength = s.strength)
    (hts : mostRecentTs (l₁ ++ s :: l₂) ≤ s'.timestamp) :
    calculateGroupScore cfg now (l₁ ++ s :: l₂) ≤
    calculateGroupScore cfg now (l₁ ++ s' :: l₂) := by
  rw [calculateGroupScore_eq, calculateGroupScore_eq]
  apply clamp_mono
  apply add_le_add
  · have : (l₁ ++ s :: l₂).any (fun x => x.strength == StrengthExplicit) =
        (l₁ ++ s' :: l₂).any (fun x => x.strength == StrengthExplicit) := by
      simp [List.any_append, List.any_cons, hstr]
    rw [this]
    apply base_mono (fun h => h)
    simp
  · apply recencyModifier_mono
    have hmem : ∀ x ∈ l₁ ++ s' :: l₂, x.timestamp ≤ s'.timestamp := by
      intro x hx
      rcases List.mem_append.mp hx with h | h
      · exact le_trans (le_mostRecentTs (by simp [h])) hts
      · rcases List.mem_cons.mp h with rfl | h
        · exact le_rfl
        · exact le_trans (le_mostRecentTs (by simp [h])) hts
    calc mostRecentTs (l₁ ++ s :: l₂) ≤ s'.timestamp := hts
      _ ≤ mostRecentTs (l₁ ++ s' :: l₂) := le_mostRecentTs (by simp)

theorem any_of_perm {l₁ l₂ : List Signal} (h : l₁.Perm l₂)
    (p : Signal → Bool) : l₁.any p = l₂.any p := by
  cases e₁ : l₁.any p with
  | false =>
    cases e₂ : l₂.any p with
    | false => rfl
    | true =>
      rcases List.any_eq_true.mp e₂ with ⟨x, hx, hpx⟩
      have := List.any_eq_true.mpr ⟨x, h.mem_iff.mpr hx, hpx⟩
      rw [this] at e₁; cases e₁
  | true =>
    rcases List.any_eq_true.mp e₁ with ⟨x, hx, hpx⟩
    exact (List.any_eq_true.mpr ⟨x, h.mem_iff.mp hx, hpx⟩).symm

theorem foldl_max_perm {l₁ l₂ : List ℚ} (h : l₁.Perm l₂) (a : ℚ) :
    l₁.foldl max a = l₂.foldl max a := by
  induction h generalizing a with
  | nil => rfl
  | cons x _ ih => simp only [List.foldl_cons]; exact ih _
  | swap x y l =>
    simp only [List.foldl_cons]
    rw [sup_right_comm]
  | trans _ _ ih₁ ih₂ => rw [ih₁, ih₂]

theorem mostRecentTs_perm {l₁ l₂ : List Signal} (h : l₁.Perm l₂) :
    mostRecentTs l₁ = mostRecentTs l₂ := by
  rw [mostRecentTs_eq_foldl_max, mostRecentTs_eq_foldl_max]
  exact foldl_max_perm (h.map _) 0

theorem calculateGroupScore_perm (cfg : Config) (now : ℚ)
    {l₁ l₂ : List Signal} (h : l₁.Perm l₂) :
    calculateGroupScore cfg now l₁ = calculateGroupScore cfg now l₂ := by
  rw [calculateGroupScore_eq, calculateGroupScore_eq,
    h.length_eq, any_of_perm h, mostRecentTs_perm h]

/-! ## Lemmas about the grouping structure -/

/-- Lookup in the association list modelling the Go map (`[]` if absent). -/
def lookupGroup (gs : List (String × List Signal)) (k : String) : List Signal :=
  ((gs.find? (fun e => e.1 == k)).map Prod.snd).getD []

theorem lookupGroup_nil (k : String) : lookupGroup [] k = [] := rfl

theorem lookupGroup_cons (e : String × List Signal)
    (rest : List (String × List Signal)) (k : String) :
    lookupGroup (e :: rest) k = if e.1 = k then e.2 else lookupGroup rest k := by
  by_cases h : e.1 = k
  · rw [if_pos h]
    unfold lookupGroup
    rw [List.find?_cons_of_pos _ (by simpa using h)]
    rfl
  · rw [if_neg h]
    unfold lookupGroup
    rw [List.find?_cons_of_neg _ (by simpa using h)]

theorem lookupGroup_insert (gs : List (String × List Signal)) (k₀ k : String)
    (s : Signal) :
    lookupGroup (insertGrouped k₀ s gs) k =
      if k = k₀ then lookupGroup gs k ++ [s] else lookupGroup gs k := by
  induction gs with
  | nil =>
    show lookupGroup ((k₀, [s]) :: []) k = _
    rw [lookupGroup_cons]
    by_cases hk : k = k₀
    · rw [if_pos hk.symm, if_pos hk, lookupGroup_nil]
      rfl
    · rw [if_neg (fun h => hk h.symm), if_neg hk]
  | cons e rest ih =>
    by_cases he : e.1 = k₀
    · rw [insertGrouped, if_pos he, lookupGroup_cons, lookupGroup_cons]
      by_cases hk : e.1 = k
      · rw [if_pos hk, if_pos hk, if_pos (hk.symm.trans he)]
      · rw [if_neg hk, if_neg hk, if_neg (fun h : k = k₀ => hk (he.trans h.symm))]
    · rw [insertGrouped, if_neg he, lookupGroup_cons, lookupGroup_cons]
      by_cases hk : e.1 = k
      · rw [if_pos hk, if_pos hk, if_neg (fun h : k = k₀ => he (hk.trans h))]
      · rw [if_neg hk, if_neg hk, ih]

theorem lookupGroup_groupByKey (f : Signal → String) (sigs : List Signal)
    (k : String) :
    lookupGroup (groupByKey f sigs) k = sigs.filter (fun s => f s == k) := by
  induction sigs using List.reverseRecOn with
  | nil => simp [groupByKey, lookupGroup]
  | append_singleton l s ih =>
    have hstep : groupByKey f (l ++ [s]) = insertGrouped (f s) s (groupByKey f l) := by
      simp [groupByKey, List.foldl_append]
    rw [hstep, lookupGroup_insert, List.filter_append]
    by_cases hk : k = f s
    · rw [if_pos hk, ih]
      simp [List.filter, hk]
    · rw [if_neg hk, ih]
      have : ¬ (f s == k) = true := by simpa using fun h => hk h.symm
      simp [List.filter, this]

theorem keys_insert_of_mem {gs : List (String × List Signal)} {k : String}
    (s : Signal) (h : k ∈ gs.map Prod.fst) :
    (insertGrouped k s gs).map Prod.fst = gs.map Prod.fst := by
  induction gs with
  | nil => cases h
  | cons e rest ih =>
    by_cases he : e.1 = k
    · simp [insertGrouped, he]
    · have : k ∈ rest.map Prod.fst := by
        rcases List.mem_cons.mp h with h' | h'
        · exact absurd h'.symm he
        · exact h'
      simp [insertGrouped, he, ih this]

theorem keys_insert_of_not_mem {gs : List (String × List Signal)} {k : String}
    (s : Signal) (h : ¬ k ∈ gs.map Prod.fst) :
    (insertGrouped k s gs).map Prod.fst = gs.map Prod.fst ++ [k] := by
  induction gs with
  | nil => simp [insertGrouped]
  | cons e rest ih =>
    have he : ¬ e.1 = k := fun h' => h (by simp [h'])
    have hrest : ¬ k ∈ rest.map Prod.fst := fun h' => h (by simp [h'])
    simp [insertGrouped, he, ih hrest]

theorem keys_nodup (f : Signal → String) (sigs : List Signal) :
    ((groupByKey f sigs).map Prod.fst).Nodup := by
  induction sigs using List.reverseRecOn with
  | nil => simp [groupByKey]
  | append_singleton l s ih =>
    have hstep : groupByKey f (l ++ [s]) = insertGrouped (f s) s (groupByKey f l) := by
      simp [groupByKey, List.foldl_append]
    rw [hstep]
    by_cases hmem : f s ∈ (groupByKey f l).map Prod.fst
    · rw [keys_insert_of_mem s hmem]; exact ih
    · rw [keys_insert_of_not_mem s hmem]
      exact List.nodup_append.mpr
        ⟨ih, List.nodup_singleton _, by simpa [List.disjoint_singleton] using hmem⟩

theorem find?_eq_of_mem_of_nodup {gs : List (String × List Signal)}
    {e : String × List Signal} (hmem : e ∈ gs)
    (hnd : (gs.map Prod.fst).Nodup) :
    gs.find? (fun e' => e'.1 == e.1) = some e := by
  induction gs with
  | nil => cases hmem
  | cons e' rest ih =>
    rcases List.mem_cons.mp hmem with rfl | h
    · exact List.find?_cons_of_pos _ (by simp)
    · have hne : ¬ e'.1 = e.1 := by
        intro hk
        have : e'.1 ∈ rest.map Prod.fst := hk ▸ List.mem_map_of_mem Prod.fst h
        exact (List.nodup_cons.mp hnd).1 this
      rw [List.find?_cons_of_neg _ (by simpa using hne)]
      exact ih h (List.nodup_cons.mp hnd).2

/-- Every entry of the grouping is exactly the in-order sublist of the input
with that key: no signal is dropped, duplicated, or reordered in its group. -/
theorem entry_eq_filter {f : Signal → String} {sigs : List Signal}
    {e : String × List Signal} (hmem : e ∈ groupByKey f sigs) :
    e.2 = sigs.filter (fun s => f s == e.1) := by
  have h1 := find?_eq_of_mem_of_nodup hmem (keys_nodup f sigs)
  have h2 := lookupGroup_groupByKey f sigs e.1
  rw [lookupGroup, h1] at h2
  simpa using h2

theorem entry_key_of_mem_group {f : Signal → String} {sigs : List Signal}
    {e : String × List Signal} (hmem : e ∈ groupByKey f sigs)
    {s : Signal} (hs : s ∈ e.2) : f s = e.1 := by
  rw [entry_eq_filter hmem] at hs
  simpa using (List.mem_filter.mp hs).2

theorem mem_insertGrouped (k : String) (s : Signal) :
    ∀ (gs : List (String × List Signal)), ∀ e ∈ insertGrouped k s gs,
      (∃ e' ∈ gs, e = (e'.1, e'.2 ++ [s])) ∨ e ∈ gs ∨ e = (k, [s]) := by
  intro gs
  induction gs with
  | nil =>
    intro e hmem
    simp only [insertGrouped, List.mem_singleton] at hmem
    exact Or.inr (Or.inr hmem)
  | cons e' rest ih =>
    intro e hmem
    by_cases he : e'.1 = k
    · rw [insertGrouped, if_pos he] at hmem
      rcases List.mem_cons.mp hmem with rfl | h
      · exact Or.inl ⟨e', List.mem_cons_self _ _, rfl⟩
      · exact Or.inr (Or.inl (List.mem_cons_of_mem _ h))
    · rw [insertGrouped, if_neg he] at hmem
      rcases List.mem_cons.mp hmem with rfl | h
      · exact Or.inr (Or.inl (List.mem_cons_self _ _))
      · rcases ih e h with ⟨e'', hm, he''⟩ | h' | h'
        · exact Or.inl ⟨e'', List.mem_cons_of_mem _ hm, he''⟩
        · exact Or.inr (Or.inl (List.mem_cons_of_mem _ h'))
        · exact Or.inr (Or.inr h')

theorem entries_nonempty (f : Signal → String) (sigs : List Signal) :
    ∀ e ∈ groupByKey f sigs, e.2 ≠ [] := by
  induction sigs using List.reverseRecOn with
  | nil => intro e hmem; cases hmem
  | append_singleton l s ih =>
    intro e hmem
    have hstep : groupByKey f (l ++ [s]) = insertGrouped (f s) s (groupByKey f l) := by
      simp [groupByKey, List.foldl_append]
    rw [hstep] at hmem
    rcases mem_insertGrouped (f s) s _ e hmem with ⟨e', _, rfl⟩ | h | rfl
    · simp
    · exact ih e h
    · simp

theorem mem_of_mem_group {f : Signal → String} {sigs : List Signal}
    {e : String × List Signal} (hmem : e ∈ groupByKey f sigs)
    {s : Signal} (hs : s ∈ e.2) : s ∈ sigs := by
  rw [entry_eq_filter hmem] at hs
  exact (List.mem_filter.mp hs).1

/-- Conservation: flattening all groups gives back a permutation of the
input. -/
theorem flatten_groupByKey_perm (f : Signal → String) (sigs : List Signal) :
    ((groupByKey f sigs).map Prod.snd).flatten.Perm sigs := by
  induction sigs using List.reverseRecOn with
  | nil => simp [groupByKey]
  | append_singleton l s ih =>
    have hstep : groupByKey f (l ++ [s]) = insertGrouped (f s) s (groupByKey f l) := by
      simp [groupByKey, List.foldl_append]
    rw [hstep]
    have hins : ∀ (gs : List (String × List Signal)) (k : String),
        ((insertGrouped k s gs).map Prod.snd).flatten.Perm
          ((gs.map Prod.snd).flatten ++ [s]) := by
      intro gs k
      induction gs with
      | nil => simp [insertGrouped]
      | cons e rest ih2 =>
        by_cases he : e.1 = k
        · simp only [insertGrouped, if_pos he, List.map_cons, List.flatten_cons,
            List.append_assoc]
          exact List.Perm.append_left e.2 List.perm_append_comm
        · simp only [insertGrouped, if_neg he, List.map_cons, List.flatten_cons,
            List.append_assoc]
          exact List.Perm.append_left e.2 ih2
    exact (hins (groupByKey f l) (f s)).trans (ih.append_right [s])

/-- Two signals of the input land in a common group exactly when their keys
agree. -/
theorem same_group_iff {f : Signal → String} {sigs : List Signal}
    {s₁ s₂ : Signal} (h₁ : s₁ ∈ sigs) (h₂ : s₂ ∈ sigs) :
    (∃ e ∈ groupByKey f sigs, s₁ ∈ e.2 ∧ s₂ ∈ e.2) ↔ f s₁ = f s₂ := by
  constructor
  · rintro ⟨e, hmem, hs₁, hs₂⟩
    rw [entry_key_of_mem_group hmem hs₁, entry_key_of_mem_group hmem hs₂]
  · intro heq
    have hfilter : s₁ ∈ sigs.filter (fun s => f s == f s₁) :=
      List.mem_filter.mpr ⟨h₁, by simp⟩
    have hlk := lookupGroup_groupByKey f sigs (f s₁)
    rcases hf : (groupByKey f sigs).find? (fun e => e.1 == f s₁) with _ | e
    · rw [lookupGroup, hf] at hlk
      have hlk' : ([] : List Signal) = sigs.filter (fun s => f s == f s₁) := hlk
      rw [← hlk'] at hfilter
      cases hfilter
    · have hmem : e ∈ groupByKey f sigs := List.mem_of_find?_eq_some hf
      have hkey : e.1 = f s₁ := by simpa using List.find?_some hf
      rw [lookupGroup, hf] at hlk
      have hlk' : e.2 = sigs.filter (fun s => f s == f s₁) := hlk
      refine ⟨e, hmem, ?_, ?_⟩
      · show s₁ ∈ e.2
        rw [hlk']
        exact hfilter
      · show s₂ ∈ e.2
        rw [hlk']
        exact List.mem_filter.mpr ⟨h₂, by simp [heq]⟩

/-! ## Lemmas about the timestamp sort and `buildPreference` -/

instance : IsTotal Signal (fun a b => b.timestamp ≤ a.timestamp) :=
  ⟨fun a b => le_total b.timestamp a.timestamp⟩

instance : IsTrans Signal (fun a b => b.timestamp ≤ a.timestamp) :=
  ⟨fun _ _ _ h₁ h₂ => le_trans h₂ h₁⟩

theorem sortByTimestampDesc_perm (sigs : List Signal) :
    (sortByTimestampDesc sigs).Perm sigs :=
  List.perm_insertionSort _ _

theorem sortByTimestampDesc_sorted (sigs : List Signal) :
    (sortByTimestampDesc sigs).Sorted (fun a b => b.timestamp ≤ a.timestamp) :=
  List.sorted_insertionSort _ _

/-- In a sorted list, every element is related to the last element. -/
theorem sorted_rel_getLastD {α : Type} {r : α → α → Prop}
    (htrans : ∀ {a b c : α}, r a b → r b c → r a c) (hrefl : ∀ a, r a a)
    {a : α} {l : List α} (h : List.Sorted r (a :: l)) :
    ∀ x ∈ a :: l, r x (l.getLastD a) := by
  induction l generalizing a with
  | nil =>
    intro x hx
    simp only [List.mem_singleton] at hx
    subst hx
    simpa using hrefl x
  | cons b t ih =>
    intro x hx
    rw [List.getLastD_cons]
    have h' : List.Sorted r (b :: t) := h.of_cons
    have hab : r a b := List.rel_of_sorted_cons h b (by simp)
    rcases List.mem_cons.mp hx with rfl | hx'
    · exact htrans hab (ih h' b (by simp))
    · exact ih h' x hx'

/-- Characterization of `buildPreference` on a non-empty group: count,
confidence over the full set, first/last seen as min/max timestamp, and the
canonical value taken from a signal attaining the maximal timestamp. -/
theorem buildPreference_spec (cfg : Config) (now : ℚ) {sigs : List Signal}
    (hne : sigs ≠ []) :
    ∃ p, buildPreference cfg now sigs = some p ∧
      p.signalCount = sigs.length ∧
      p.confidence = calculateGroupScore cfg now sigs ∧
      p.firstSeen = minD (sigs.map (fun s => s.timestamp)) ∧
      p.lastSeen = maxD (sigs.map (fun s => s.timestamp)) ∧
      ∃ s ∈ sigs, s.timestamp = maxD (sigs.map (fun s => s.timestamp)) ∧
        p.description = s.description ∧ p.category = s.category ∧
        p.title = s.title := by
  have hperm := sortByTimestampDesc_perm sigs
  have hsorted := sortByTimestampDesc_sorted sigs
  rcases e : sortByTimestampDesc sigs with _ | ⟨m, rest⟩
  · rw [e] at hperm
    exact absurd hperm.nil_eq.symm hne
  · rw [e] at hperm hsorted
    have hmem : ∀ x ∈ sigs, x ∈ m :: rest := fun x hx => hperm.mem_iff.mpr hx
    have hmmem : m ∈ sigs := hperm.mem_iff.mp (List.mem_cons_self _ _)
    have hbound : ∀ q ∈ sigs.map (fun s => s.timestamp), q ≤ m.timestamp := by
      intro q hq
      rcases List.mem_map.mp hq with ⟨x, hx, rfl⟩
      rcases List.mem_cons.mp (hmem x hx) with rfl | hx'
      · exact le_rfl
      · exact List.rel_of_sorted_cons hsorted x hx'
    have hmax : maxD (sigs.map (fun s => s.timestamp)) = m.timestamp :=
      maxD_eq (List.mem_map_of_mem _ hmmem) hbound
    have hlastrel := sorted_rel_getLastD
      (r := fun a b : Signal => b.timestamp ≤ a.timestamp)
      (fun hab hbc => le_trans hbc hab) (fun _ => le_rfl) hsorted
    have holdmem : rest.getLastD m ∈ sigs :=
      hperm.mem_iff.mp (List.getLastD_mem_cons rest m)
    have hminbound : ∀ q ∈ sigs.map (fun s => s.timestamp),
        (rest.getLastD m).timestamp ≤ q := by
      intro q hq
      rcases List.mem_map.mp hq with ⟨x, hx, rfl⟩
      exact hlastrel x (hmem x hx)
    have hmin : minD (sigs.map (fun s => s.timestamp)) =
        (rest.getLastD m).timestamp :=
      minD_eq (List.mem_map_of_mem _ holdmem) hminbound
    refine ⟨_, by rw [buildPreference, e], ?_, ?_, ?_, ?_, ?_⟩
    · exact hperm.length_eq
    · exact calculateGroupScore_perm cfg now hperm
    · exact hmin.symm
    · exact hmax.symm
    · exact ⟨m, hmmem, hmax.symm ▸ rfl, rfl, rfl, rfl⟩

/-! ## Lemmas about `hasConflict` -/

/-- The two entries Go reads after sorting the score list ascending are the
maximum and the maximum-after-removing-one-copy-of-the-maximum. -/
theorem sort_desc_two {L : List ℚ} (h2 : 2 ≤ L.length) :
    ∃ t s rest, (L.insertionSort (· ≤ ·)).reverse = t :: s :: rest ∧
      t = maxD L ∧ s = maxD (L.erase t) := by
  have hperm : (L.insertionSort (· ≤ ·)).Perm L := List.perm_insertionSort _ _
  have hsorted : (L.insertionSort (· ≤ ·)).Sorted (· ≤ ·) :=
    List.sorted_insertionSort _ _
  have hlen : 2 ≤ (L.insertionSort (· ≤ ·)).reverse.length := by
    rw [List.length_reverse, hperm.length_eq]; exact h2
  rcases e : (L.insertionSort (· ≤ ·)).reverse with _ | ⟨t, _ | ⟨s, rest⟩⟩
  · rw [e] at hlen; simp at hlen
  · rw [e] at hlen; simp at hlen
  · have hrevperm : (t :: s :: rest).Perm L := by
      rw [← e]
      exact (List.reverse_perm _).trans hperm
    have hpair : (t :: s :: rest).Pairwise (fun a b : ℚ => b ≤ a) := by
      rw [← e]
      exact List.pairwise_reverse.mpr hsorted
    have htbound : ∀ x ∈ L, x ≤ t := by
      intro x hx
      rcases List.mem_cons.mp (hrevperm.mem_iff.mpr hx) with rfl | hx'
      · exact le_rfl
      · exact List.rel_of_pairwise_cons hpair hx'
    have ht : t = maxD L :=
      (maxD_eq (hrevperm.mem_iff.mp (List.mem_cons_self _ _)) htbound).symm
    have herase : (L.erase t).Perm (s :: rest) := by
      have h1 : L.Perm (t :: s :: rest) := hrevperm.symm
      have h2' := h1.erase t
      rw [List.erase_cons_head] at h2'
      exact h2'
    have hpair' : (s :: rest).Pairwise (fun a b : ℚ => b ≤ a) :=
      List.Pairwise.of_cons hpair
    have hsbound : ∀ x ∈ L.erase t, x ≤ s := by
      intro x hx
      rcases List.mem_cons.mp (herase.mem_iff.mp hx) with rfl | hx'
      · exact le_rfl
      · exact List.rel_of_pairwise_cons hpair' hx'
    have hs : s = maxD (L.erase t) :=
      (maxD_eq (herase.mem_iff.mpr (List.mem_cons_self _ _)) hsbound).symm
    exact ⟨t, s, rest, rfl, ht, hs⟩

/-- Characterization of `hasConflict` on a group with at least two cohorts of
positive scores: it holds exactly when the second largest score is at least
`conflictThreshold` times the largest. -/
theorem hasConflict_iff (cfg : Config) (now : ℚ)
    {descGroups : List (String × List Signal)} (h2 : 2 ≤ descGroups.length) :
    (hasConflict cfg now descGroups = true ↔
      cfg.conflictThreshold ≤
        maxD ((cohortScores cfg now descGroups).erase
              (maxD (cohortScores cfg now descGroups))) /
        maxD (cohortScores cfg now descGroups)) := by
  set L := cohortScores cfg now descGroups with hL
  have hlen : L.length = descGroups.length := by
    rw [hL]; exact List.length_map _ _
  have h2' : 2 ≤ L.length := hlen ▸ h2
  obtain ⟨t, s, rest, he, ht, hs⟩ := sort_desc_two h2'
  have hLne : L ≠ [] := by
    intro h; rw [h] at h2'; simp at h2'
  have htpos : 0 < maxD L := by
    have hmem := maxD_mem hLne
    rw [hL] at hmem
    rcases List.mem_map.mp hmem with ⟨e', _, he'⟩
    rw [hL, ← he']
    exact calculateGroupScore_pos cfg now e'.2
  have hne1 : ¬ descGroups.length ≤ 1 := by omega
  rw [hasConflict, if_neg hne1]
  rw [← hL, he]
  have htne : ¬ t = 0 := by rw [ht]; exact ne_of_gt htpos
  show (if t = 0 then false
        else decide (cfg.conflictThreshold ≤ s / t)) = true ↔ _
  rw [if_neg htne, decide_eq_true_iff, ht, hs, ht]

/-! ## Lemmas about `aggregateGroup` and `Aggregate` -/

theorem aggregateGroup_below_min {cfg : Config} {now : ℚ} {sigs : List Signal}
    (h : sigs.length < cfg.minSignalCount) :
    aggregateGroup cfg now sigs = (none, none) := by
  unfold aggregateGroup
  rw [if_pos h]

theorem aggregateGroup_of_min {cfg : Config} {now : ℚ} {s0 : Signal}
    {tl : List Signal} (hmin : cfg.minSignalCount ≤ (s0 :: tl).length) :
    aggregateGroup cfg now (s0 :: tl) =
      if 1 < (groupByDescription (s0 :: tl)).length ∧
          hasConflict cfg now (groupByDescription (s0 :: tl))
      then (none, some (buildConflict cfg now s0.category s0.title
              (groupByDescription (s0 :: tl))))
      else (buildPreference cfg now (s0 :: tl), none) := by
  unfold aggregateGroup
  rw [if_neg (not_lt.mpr hmin)]

theorem Aggregate_analyzedMessages (cfg : Config) (now : ℚ)
    (sigs : List Signal) :
    (Aggregate cfg now sigs).analyzedMessages = sigs.length := rfl

theorem Aggregate_timeRange_cons (cfg : Config) (now : ℚ) (s : Signal)
    (rest : List Signal) :
    (Aggregate cfg now (s :: rest)).timeRange =
      { start := s.timestamp, stop := (rest.getLastD s).timestamp } := rfl

/-! ## Concrete example signals used in witnesses and counterexamples -/

/-- Shorthand for building concrete signals in examples. -/
def mkSig (c t d st : String) (ts : ℚ) : Signal :=
  { category := c, title := t, description := d, strength := st,
    timestamp := ts, context := "" }

/-! ## Claim C5 -/

/-- C5: for every non-empty set of signals the Scorer returns exactly the
frequency bucket (`≥11→0.85, ≥6→0.70, ≥3→0.50, else→0.30`), replaced by 0.95
when any signal is explicit, plus the recency modifier on the most recent
timestamp (`+0.05` within `recentDays`, `-0.10` at or past `staleDays`, `0`
otherwise), clamped to `[0.1, 1.0]`. -/
theorem C5_scorer_formula (cfg : Config) (now : ℚ) (sigs : List Signal)
    (hne : sigs ≠ []) (hts : ∀ s ∈ sigs, 0 ≤ s.timestamp) :
    calculateGroupScore cfg now sigs =
      max 0.1 (min 1
        ((if ∃ s ∈ sigs, s.strength = StrengthExplicit then (0.95 : ℚ)
          else if 11 ≤ sigs.length then 0.85
          else if 6 ≤ sigs.length then 0.7
          else if 3 ≤ sigs.length then 0.5
          else 0.3) +
         recencyModifier cfg now (maxD (sigs.map (fun s => s.timestamp))))) := by
  have hany : (sigs.any (fun s => s.strength == StrengthExplicit) = true) ↔
      (∃ s ∈ sigs, s.strength = StrengthExplicit) := by
    simp [List.any_eq_true]
  have h1 : (if sigs.any (fun s => s.strength == StrengthExplicit) then (0.95 : ℚ)
      else frequencyToConfidence sigs.length) =
      (if ∃ s ∈ sigs, s.strength = StrengthExplicit then (0.95 : ℚ)
       else if 11 ≤ sigs.length then 0.85
       else if 6 ≤ sigs.length then 0.7
       else if 3 ≤ sigs.length then 0.5
       else 0.3) :=
    if_congr hany rfl (by rfl)
  rw [calculateGroupScore_eq, h1, mostRecentTs_eq_maxD hne hts]

/-- Witness for C5 at a concrete input: a single explicit recent signal. -/
theorem C5_witness :
    calculateGroupScore DefaultConfig 5 [mkSig "tooling" "k" "v" "explicit" 3] =
      max 0.1 (min 1
        ((if ∃ s ∈ [mkSig "tooling" "k" "v" "explicit" 3],
              s.strength = StrengthExplicit then (0.95 : ℚ)
          else if 11 ≤ [mkSig "tooling" "k" "v" "explicit" 3].length then 0.85
          else if 6 ≤ [mkSig "tooling" "k" "v" "explicit" 3].length then 0.7
          else if 3 ≤ [mkSig "tooling" "k" "v" "explicit" 3].length then 0.5
          else 0.3) +
         recencyModifier DefaultConfig 5
           (maxD ([mkSig "tooling" "k" "v" "explicit" 3].map
             (fun s => s.timestamp))))) :=
  C5_scorer_formula DefaultConfig 5 _ (by simp)
    (by intro s hs; simp only [List.mem_singleton] at hs; subst hs; norm_num [mkSig])

/-! ## Claim C6 -/

/-- C6: every Preference built from a non-empty signal set has
`signalCount` the set's size, `confidence` the Scorer on the full set,
`firstSeen`/`lastSeen` the oldest/newest timestamps, and its description is
that of a signal attaining the newest timestamp (last word wins). -/
theorem C6_preference_fields (cfg : Config) (now : ℚ) (sigs : List Signal)
    (hne : sigs ≠ []) :
    ∃ p, buildPreference cfg now sigs = some p ∧
      p.signalCount = sigs.length ∧
      p.confidence = calculateGroupScore cfg now sigs ∧
      p.firstSeen = minD (sigs.map (fun s => s.timestamp)) ∧
      p.lastSeen = maxD (sigs.map (fun s => s.timestamp)) ∧
      ∃ s ∈ sigs, s.timestamp = maxD (sigs.map (fun s => s.timestamp)) ∧
        p.description = s.description := by
  obtain ⟨p, hp, hcount, hconf, hfirst, hlast, s, hs, hts, hdesc, -, -⟩ :=
    buildPreference_spec cfg now hne
  exact ⟨p, hp, hcount, hconf, hfirst, hlast, s, hs, hts, hdesc⟩

/-- Witness for C6: three same-value signals at days 0, 10 and 20. -/
theorem C6_witness :
    ∃ p, buildPreference DefaultConfig 25
        [mkSig "tooling" "k" "v" "inferred" 0,
         mkSig "tooling" "k" "v" "inferred" 10,
         mkSig "tooling" "k" "v" "inferred" 20] = some p ∧
      p.signalCount = [mkSig "tooling" "k" "v" "inferred" 0,
         mkSig "tooling" "k" "v" "inferred" 10,
         mkSig "tooling" "k" "v" "inferred" 20].length ∧
      p.confidence = calculateGroupScore DefaultConfig 25
        [mkSig "tooling" "k" "v" "inferred" 0,
         mkSig "tooling" "k" "v" "inferred" 10,
         mkSig "tooling" "k" "v" "inferred" 20] ∧
      p.firstSeen = minD ([mkSig "tooling" "k" "v" "inferred" 0,
         mkSig "tooling" "k" "v" "inferred" 10,
         mkSig "tooling" "k" "v" "inferred" 20].map (fun s => s.timestamp)) ∧
      p.lastSeen = maxD ([mkSig "tooling" "k" "v" "inferred" 0,
         mkSig "tooling" "k" "v" "inferred" 10,
         mkSig "tooling" "k" "v" "inferred" 20].map (fun s => s.timestamp)) ∧
      ∃ s ∈ [mkSig "tooling" "k" "v" "inferred" 0,
         mkSig "tooling" "k" "v" "inferred" 10,
         mkSig "tooling" "k" "v" "inferred" 20],
        s.timestamp = maxD ([mkSig "tooling" "k" "v" "inferred" 0,
         mkSig "tooling" "k" "v" "inferred" 10,
         mkSig "tooling" "k" "v" "inferred" 20].map (fun s => s.timestamp)) ∧
        p.description = s.description :=
  C6_preference_fields DefaultConfig 25 _ (by simp)

/-! ## Claim C7 -/

/-- C7: the Scorer is monotone in frequency and recency — inserting an extra
signal never lowers the score, replacing a signal by one with the same
strength and a timestamp at least the group's most recent never lowers the
score, and consequently adding a signal to a Preference's backing set never
lowers the resulting confidence. -/
theorem C7_scorer_monotonic :
    (∀ (cfg : Config) (now : ℚ) (l₁ l₂ : List Signal) (s : Signal),
      calculateGroupScore cfg now (l₁ ++ l₂) ≤
        calculateGroupScore cfg now (l₁ ++ s :: l₂)) ∧
    (∀ (cfg : Config) (now : ℚ) (l₁ l₂ : List Signal) (s s' : Signal),
      s'.strength = s.strength →
      mostRecentTs (l₁ ++ s :: l₂) ≤ s'.timestamp →
      calculateGroupScore cfg now (l₁ ++ s :: l₂) ≤
        calculateGroupScore cfg now (l₁ ++ s' :: l₂)) ∧
    (∀ (cfg : Config) (now : ℚ) (sigs : List Signal) (s : Signal)
        (p : Preference),
      buildPreference cfg now sigs = some p →
      ∃ p', buildPreference cfg now (s :: sigs) = some p' ∧
        p.confidence ≤ p'.confidence) := by
  refine ⟨calculateGroupScore_insert_mono,
    calculateGroupScore_fresher_mono, ?_⟩
  intro cfg now sigs s p hp
  have hne : sigs ≠ [] := by
    rintro rfl
    rw [buildPreference] at hp
    cases hp
  obtain ⟨p₀, hp₀, -, hconf₀, -, -, -⟩ := buildPreference_spec cfg now hne
  rw [hp] at hp₀
  obtain rfl : p₀ = p := by injection hp₀.symm
  obtain ⟨p', hp', -, hconf', -, -, -⟩ :=
    @buildPreference_spec cfg now (s :: sigs) (by simp)
  refine ⟨p', hp', ?_⟩
  rw [hconf₀, hconf']
  simpa using calculateGroupScore_insert_mono cfg now [] sigs s

/-- Witness for C7: the fresher-replacement and confidence-monotonicity
conjuncts at concrete inputs. -/
theorem C7_witness :
    (calculateGroupScore DefaultConfig 50
        ([] ++ mkSig "tooling" "k" "v" "inferred" 10 :: []) ≤
      calculateGroupScore DefaultConfig 50
        ([] ++ mkSig "tooling" "k" "v" "inferred" 49 :: [])) ∧
    (∃ p', buildPreference DefaultConfig 50
        (mkSig "tooling" "k" "v" "explicit" 49 ::
          [mkSig "tooling" "k" "v" "inferred" 10]) = some p' ∧
      ({ category := "tooling", title := "k", description := "v",
         confidence := 0.2, signalCount := 1, firstSeen := 10,
         lastSeen := 10 : Preference }).confidence ≤ p'.confidence) := by
  constructor
  · exact C7_scorer_monotonic.2.1 DefaultConfig 50 [] []
      (mkSig "tooling" "k" "v" "inferred" 10)
      (mkSig "tooling" "k" "v" "inferred" 49)
      rfl
      (by norm_num [mostRecentTs, mkSig, List.foldl])
  · refine C7_scorer_monotonic.2.2 DefaultConfig 50
      [mkSig "tooling" "k" "v" "inferred" 10]
      (mkSig "tooling" "k" "v" "explicit" 49) _ ?_
    simp +decide only [buildPreference, sortByTimestampDesc, List.insertionSort,
      List.orderedInsert, mkSig, calculateGroupScore, frequencyToConfidence,
      recencyModifier, mostRecentTs, StrengthExplicit, DefaultConfig,
      List.foldl, List.any, List.length, List.getLastD]
    norm_num

/-! ## Claim C10 support -/

theorem conflictStep_mem {cfg : Config} {now : ℚ} {vs : List ConflictValue}
    {e : String × List Signal} {v : ConflictValue}
    (hv : v ∈ conflictStep cfg now vs e) :
    v ∈ vs ∨ ∃ sigs', v.strength = calculateGroupScore cfg now sigs' := by
  rcases e2 : sortByTimestampDesc e.2 with _ | ⟨m, rest⟩
  · rw [conflictStep, e2] at hv
    exact Or.inl hv
  · rw [conflictStep, e2] at hv
    rcases List.mem_append.mp hv with h | h
    · exact Or.inl h
    · simp only [List.mem_singleton] at h
      subst h
      exact Or.inr ⟨m :: rest, rfl⟩

theorem foldl_conflictStep_mem (cfg : Config) (now : ℚ) (v : ConflictValue) :
    ∀ (dgs : List (String × List Signal)) (acc : List ConflictValue),
      v ∈ dgs.foldl (conflictStep cfg now) acc →
      v ∈ acc ∨ ∃ sigs', v.strength = calculateGroupScore cfg now sigs' := by
  intro dgs
  induction dgs with
  | nil => intro acc h; exact Or.inl h
  | cons e rest ih =>
    intro acc h
    rw [List.foldl_cons] at h
    rcases ih (conflictStep cfg now acc e) h with h' | h'
    · exact conflictStep_mem h'
    · exact Or.inr h'

theorem buildConflict_strength (cfg : Config) (now : ℚ) (cat title : String)
    (descGroups : List (String × List Signal)) :
    ∀ v ∈ (buildConflict cfg now cat title descGroups).values,
      ∃ sigs', v.strength = calculateGroupScore cfg now sigs' := by
  intro v hv
  have hv' : v ∈ descGroups.foldl (conflictStep cfg now) [] :=
    (List.perm_insertionSort _ _).mem_iff.mp hv
  rcases foldl_conflictStep_mem cfg now v descGroups [] hv' with h' | h'
  · cases h'
  · exact h'

/-- On a group with at least two description cohorts, the top cohort score is
positive (indeed at least 0.1). -/
theorem cohort_maxD_pos (cfg : Config) (now : ℚ)
    {descGroups : List (String × List Signal)} (hne : descGroups ≠ []) :
    0 < maxD (cohortScores cfg now descGroups) := by
  have hLne : cohortScores cfg now descGroups ≠ [] := by
    simpa [cohortScores] using hne
  set M := maxD (cohortScores cfg now descGroups) with hM
  have hmem : M ∈ cohortScores cfg now descGroups := maxD_mem hLne
  rw [cohortScores] at hmem
  rcases List.mem_map.mp hmem with ⟨e', -, he'⟩
  rw [← he']
  exact calculateGroupScore_pos cfg now e'.2

theorem groupByDescription_ne_nil {sigs : List Signal}
    (h : 2 ≤ (groupByDescription sigs).length) : groupByDescription sigs ≠ [] := by
  intro hnil
  rw [hnil] at h
  simp at h

/-- The conflict component of `aggregateGroup` is always a `buildConflict`
over the description grouping of the (non-empty) group. -/
theorem aggregateGroup_conflict_inv {cfg : Config} {now : ℚ}
    {sigs : List Signal} {c : ConflictingPreference}
    (h : (aggregateGroup cfg now sigs).2 = some c) :
    ∃ s0 tl, sigs = s0 :: tl ∧
      c = buildConflict cfg now s0.category s0.title (groupByDescription sigs) := by
  by_cases hmin : sigs.length < cfg.minSignalCount
  · rw [aggregateGroup_below_min hmin] at h
    cases h
  · rcases sigs with _ | ⟨s0, tl⟩
    · have h0 : (aggregateGroup cfg now ([] : List Signal)).2 = none := by
        unfold aggregateGroup
        split <;> rfl
      rw [h0] at h
      cases h
    · rw [aggregateGroup_of_min (not_lt.mp hmin)] at h
      by_cases hc : 1 < (groupByDescription (s0 :: tl)).length ∧
          hasConflict cfg now (groupByDescription (s0 :: tl))
      · rw [if_pos hc] at h
        exact ⟨s0, tl, rfl, by injection h.symm⟩
      · rw [if_neg hc] at h
        cases h

/-! ## Claim C10 -/

/-- C10: every group score lies in `[0.1, 1]`; hence every Preference
confidence and every ConflictValue strength lies in `[0.1, 1]`, in any
multi-cohort group the second-to-top score ratio is at least `0.1`, and any
`conflictThreshold ≤ 0.1` classifies every multi-cohort group (meeting the
minimum count) as a Conflict. -/
theorem C10_score_invariants :
    (∀ (cfg : Config) (now : ℚ) (sigs : List Signal), sigs ≠ [] →
      0.1 ≤ calculateGroupScore cfg now sigs ∧
        calculateGroupScore cfg now sigs ≤ 1) ∧
    (∀ (cfg : Config) (now : ℚ) (sigs : List Signal) (p : Preference),
      buildPreference cfg now sigs = some p →
      0.1 ≤ p.confidence ∧ p.confidence ≤ 1) ∧
    (∀ (cfg : Config) (now : ℚ) (sigs : List Signal)
        (c : ConflictingPreference),
      (aggregateGroup cfg now sigs).2 = some c →
      ∀ v ∈ c.values, 0.1 ≤ v.strength ∧ v.strength ≤ 1) ∧
    (∀ (cfg : Config) (now : ℚ) (sigs : List Signal),
      2 ≤ (groupByDescription sigs).length →
      0.1 ≤ secondHighest cfg now sigs / topHighest cfg now sigs) ∧
    (∀ (cfg : Config) (now : ℚ) (sigs : List Signal),
      cfg.conflictThreshold ≤ 0.1 →
      cfg.minSignalCount ≤ sigs.length →
      2 ≤ (groupByDescription sigs).length →
      (aggregateGroup cfg now sigs).2.isSome) := by
  have hratio : ∀ (cfg : Config) (now : ℚ) (sigs : List Signal),
      2 ≤ (groupByDescription sigs).length →
      0.1 ≤ secondHighest cfg now sigs / topHighest cfg now sigs := by
    intro cfg now sigs h2
    rw [secondHighest, topHighest]
    set L := cohortScores cfg now (groupByDescription sigs) with hL
    have hbounds : ∀ x ∈ L, 0.1 ≤ x ∧ x ≤ 1 := by
      intro x hx
      rcases List.mem_map.mp hx with ⟨e', -, he'⟩
      rw [← he']
      exact calculateGroupScore_bounds cfg now e'.2
    have hLlen : 2 ≤ L.length := by
      rw [hL, cohortScores, List.length_map]; exact h2
    have hLne : L ≠ [] := by
      intro h; rw [h] at hLlen; simp at hLlen
    have htop : maxD L ∈ L := maxD_mem hLne
    have htople : maxD L ≤ 1 := (hbounds _ htop).2
    have htoppos : 0 < maxD L := lt_of_lt_of_le (by norm_num) (hbounds _ htop).1
    have herasene : L.erase (maxD L) ≠ [] := by
      have hlen := List.length_erase_of_mem htop
      intro h
      rw [h] at hlen
      simp at hlen
      omega
    have hsec : maxD (L.erase (maxD L)) ∈ L.erase (maxD L) := maxD_mem herasene
    have hsecge : 0.1 ≤ maxD (L.erase (maxD L)) :=
      (hbounds _ (List.mem_of_mem_erase hsec)).1
    rw [le_div_iff₀ htoppos]
    calc (0.1 : ℚ) * maxD L ≤ 0.1 * 1 := by
          exact mul_le_mul_of_nonneg_left htople (by norm_num)
      _ = 0.1 := by norm_num
      _ ≤ maxD (L.erase (maxD L)) := hsecge
  refine ⟨?_, ?_, ?_, hratio, ?_⟩
  · intro cfg now sigs _
    exact calculateGroupScore_bounds cfg now sigs
  · intro cfg now sigs p hp
    have hne : sigs ≠ [] := by
      rintro rfl
      rw [buildPreference] at hp
      cases hp
    obtain ⟨p₀, hp₀, -, hconf₀, -, -, -⟩ := buildPreference_spec cfg now hne
    rw [hp] at hp₀
    obtain rfl : p₀ = p := by injection hp₀.symm
    rw [hconf₀]
    exact calculateGroupScore_bounds cfg now sigs
  · intro cfg now sigs c hc v hv
    obtain ⟨s0, tl, -, rfl⟩ := aggregateGroup_conflict_inv hc
    obtain ⟨sigs', hs'⟩ := buildConflict_strength cfg now _ _ _ v hv
    rw [hs']
    exact calculateGroupScore_bounds cfg now sigs'
  · intro cfg now sigs hthr hmin h2
    rcases sigs with _ | ⟨s0, tl⟩
    · rw [groupByDescription, groupByKey] at h2
      simp at h2
    · rw [aggregateGroup_of_min hmin]
      have hhc : hasConflict cfg now (groupByDescription (s0 :: tl)) = true :=
        (hasConflict_iff cfg now h2).mpr
          (le_trans hthr (hratio cfg now (s0 :: tl) h2))
      rw [if_pos ⟨by omega, hhc⟩]
      rfl

/-- Witness for C10: score bounds on a singleton group, and a low threshold
turning a two-cohort group into a Conflict. -/
theorem C10_witness :
    (0.1 ≤ calculateGroupScore DefaultConfig 100
        [mkSig "tooling" "k" "v" "inferred" 100] ∧
      calculateGroupScore DefaultConfig 100
        [mkSig "tooling" "k" "v" "inferred" 100] ≤ 1) ∧
    (aggregateGroup
      { minSignalCount := 1, conflictThreshold := 0.1,
        recentDays := 7, staleDays := 30 } 100
      [mkSig "code_style" "indent" "tabs" "inferred" 100,
       mkSig "code_style" "indent" "spaces" "inferred" 100]).2.isSome := by
  constructor
  · exact C10_score_invariants.1 DefaultConfig 100 _ (by simp)
  · exact C10_score_invariants.2.2.2.2 _ 100 _ (by norm_num) (by decide) (by decide)


/-! ## Claim C1 -/

/-- C1: for a group meeting the minimum count with two or more description
cohorts, a Conflict is emitted iff `secondHighest / topHighest` is at least
`conflictThreshold`; otherwise (and in particular whenever `topHighest = 0`,
which never actually happens since scores are clamped to at least 0.1) the
group resolves to a Preference. -/
theorem C1_conflict_iff_threshold (cfg : Config) (now : ℚ) (sigs : List Signal)
    (hmin : cfg.minSignalCount ≤ sigs.length)
    (hmulti : 2 ≤ (groupByDescription sigs).length) :
    ((aggregateGroup cfg now sigs).2.isSome ↔
      cfg.conflictThreshold ≤
        secondHighest cfg now sigs / topHighest cfg now sigs) ∧
    ((aggregateGroup cfg now sigs).2 = none →
      (aggregateGroup cfg now sigs).1.isSome) ∧
    (topHighest cfg now sigs = 0 →
      (aggregateGroup cfg now sigs).2 = none ∧
        (aggregateGroup cfg now sigs).1.isSome) := by
  rcases sigs with _ | ⟨s0, tl⟩
  · rw [groupByDescription, groupByKey] at hmulti
    simp at hmulti
  · have hiff := @hasConflict_iff cfg now (groupByDescription (s0 :: tl)) hmulti
    have h1lt : 1 < (groupByDescription (s0 :: tl)).length := by omega
    have htop_pos : 0 < topHighest cfg now (s0 :: tl) := by
      rw [topHighest]
      exact cohort_maxD_pos cfg now (groupByDescription_ne_nil hmulti)
    have hratio_eq :
        (hasConflict cfg now (groupByDescription (s0 :: tl)) = true ↔
          cfg.conflictThreshold ≤
            secondHighest cfg now (s0 :: tl) / topHighest cfg now (s0 :: tl)) := by
      rw [secondHighest, topHighest]
      exact hiff
    rw [aggregateGroup_of_min hmin]
    by_cases hc : hasConflict cfg now (groupByDescription (s0 :: tl)) = true
    · rw [if_pos ⟨h1lt, hc⟩]
      refine ⟨iff_of_true rfl (hratio_eq.mp hc), ?_, ?_⟩
      · intro h; cases h
      · intro h0; exact absurd h0 (ne_of_gt htop_pos)
    · rw [if_neg (fun h => hc h.2)]
      have hpref : (buildPreference cfg now (s0 :: tl)).isSome = true := by
        obtain ⟨p, hp, -⟩ := @buildPreference_spec cfg now (s0 :: tl) (by simp)
        rw [hp]; rfl
      refine ⟨iff_of_false (by simp) (fun h => hc (hratio_eq.mpr h)), ?_, ?_⟩
      · intro _; exact hpref
      · intro h0; exact absurd h0 (ne_of_gt htop_pos)

/-- Witness for C1: a two-cohort tie is a conflict at the default threshold. -/
theorem C1_witness :
    ((aggregateGroup DefaultConfig 100
        [mkSig "code_style" "indent" "tabs" "inferred" 100,
         mkSig "code_style" "indent" "spaces" "inferred" 100]).2.isSome ↔
      DefaultConfig.conflictThreshold ≤
        secondHighest DefaultConfig 100
          [mkSig "code_style" "indent" "tabs" "inferred" 100,
           mkSig "code_style" "indent" "spaces" "inferred" 100] /
        topHighest DefaultConfig 100
          [mkSig "code_style" "indent" "tabs" "inferred" 100,
           mkSig "code_style" "indent" "spaces" "inferred" 100]) ∧
    ((aggregateGroup DefaultConfig 100
        [mkSig "code_style" "indent" "tabs" "inferred" 100,
         mkSig "code_style" "indent" "spaces" "inferred" 100]).2 = none →
      (aggregateGroup DefaultConfig 100
        [mkSig "code_style" "indent" "tabs" "inferred" 100,
         mkSig "code_style" "indent" "spaces" "inferred" 100]).1.isSome) ∧
    (topHighest DefaultConfig 100
        [mkSig "code_style" "indent" "tabs" "inferred" 100,
         mkSig "code_style" "indent" "spaces" "inferred" 100] = 0 →
      (aggregateGroup DefaultConfig 100
        [mkSig "code_style" "indent" "tabs" "inferred" 100,
         mkSig "code_style" "indent" "spaces" "inferred" 100]).2 = none ∧
      (aggregateGroup DefaultConfig 100
        [mkSig "code_style" "indent" "tabs" "inferred" 100,
         mkSig "code_style" "indent" "spaces" "inferred" 100]).1.isSome) :=
  C1_conflict_iff_threshold DefaultConfig 100 _ (by decide) (by decide)


/-! ## Claim C3 -/

/-- Counterexample to C3: with `minSignalCount = 2`, a group holding a single
explicit signal is still discarded — the current resolver has no
explicit-single-mention exception. -/
theorem C3_counterexample :
    aggregateGroup
      { minSignalCount := 2, conflictThreshold := 0.3,
        recentDays := 7, staleDays := 30 } 0
      [mkSig "tooling" "k" "v" "explicit" 0] = (none, none) ∧
    (mkSig "tooling" "k" "v" "explicit" 0).strength = StrengthExplicit := by
  constructor
  · exact aggregateGroup_below_min (by decide)
  · rfl

/-- C3 (amended): every group whose signal count is below `minSignalCount`
is discarded silently — neither a Preference nor a Conflict is produced,
whether or not any of its signals is explicit. -/
theorem C3_below_min_discard (cfg : Config) (now : ℚ) (sigs : List Signal)
    (h : sigs.length < cfg.minSignalCount) :
    aggregateGroup cfg now sigs = (none, none) :=
  aggregateGroup_below_min h

/-- Witness for the amended C3 at a concrete input. -/
theorem C3_witness :
    aggregateGroup
      { minSignalCount := 2, conflictThreshold := 0.3,
        recentDays := 7, staleDays := 30 } 0
      [mkSig "tooling" "k" "v" "inferred" 0] = (none, none) :=
  C3_below_min_discard _ 0 _ (by decide)

/-! ## Claim C4 -/

/-- Concrete input for the C4 counterexample: three explicit recent "pnpm"
signals and one stale inferred "npm" signal in the same group. -/
def exC4 : List Signal :=
  [mkSig "tooling" "pkg-mgr" "pnpm" "explicit" 100,
   mkSig "tooling" "pkg-mgr" "pnpm" "explicit" 100,
   mkSig "tooling" "pkg-mgr" "pnpm" "explicit" 100,
   mkSig "tooling" "pkg-mgr" "npm" "inferred" 50]

/-- Counterexample to C4: in the below-threshold case the emitted Preference
is built from all four signals of the group (`signalCount = 4`,
`firstSeen = 50`), not from the three-signal top cohort alone
(`signalCount = 3`, `firstSeen = 100`): the minority cohort's signals do
contribute. -/
theorem C4_counterexample :
    secondHighest DefaultConfig 100 exC4 / topHighest DefaultConfig 100 exC4 <
      DefaultConfig.conflictThreshold ∧
    (exC4.filter (fun s => s.description == "pnpm")).length = 3 ∧
    minD ((exC4.filter (fun s => s.description == "pnpm")).map
      (fun s => s.timestamp)) = 100 ∧
    topHighest DefaultConfig 100 exC4 =
      calculateGroupScore DefaultConfig 100
        (exC4.filter (fun s => s.description == "pnpm")) ∧
    (aggregateGroup DefaultConfig 100 exC4).2 = none ∧
    (aggregateGroup DefaultConfig 100 exC4).1.map
      (fun p => (p.signalCount, p.firstSeen)) = some (4, 50) ∧
    ((4 : ℕ), (50 : ℚ)) ≠ ((3 : ℕ), (100 : ℚ)) := by
  refine ⟨?_, by decide, ?_, ?_, ?_, ?_, by norm_num⟩ <;>
    simp +decide only [secondHighest, topHighest, cohortScores,
      groupByDescription, groupByKey, insertGrouped, exC4, mkSig, maxD, minD,
      aggregateGroup, hasConflict, buildPreference, sortByTimestampDesc,
      List.insertionSort, List.orderedInsert, calculateGroupScore,
      frequencyToConfidence, recencyModifier, mostRecentTs, StrengthExplicit,
      DefaultConfig, List.foldl, List.any, List.map, List.length,
      List.reverse, List.getLastD, List.filter, List.erase] <;>
    norm_num [beq_iff_eq, List.erase]

/-- C4 (amended): in the below-threshold multi-cohort case the Preference is
built from *all* the group's signals — `signalCount` is the whole group's
size, `confidence` is the Scorer over the whole group, and
`firstSeen`/`lastSeen` range over the whole group including minority
cohorts. -/
theorem C4_absorbs_minority (cfg : Config) (now : ℚ) (sigs : List Signal)
    (hmin : cfg.minSignalCount ≤ sigs.length)
    (hmulti : 2 ≤ (groupByDescription sigs).length)
    (hbelow : secondHighest cfg now sigs / topHighest cfg now sigs <
      cfg.conflictThreshold) :
    ∃ p, aggregateGroup cfg now sigs = (some p, none) ∧
      p.signalCount = sigs.length ∧
      p.confidence = calculateGroupScore cfg now sigs ∧
      p.firstSeen = minD (sigs.map (fun s => s.timestamp)) ∧
      p.lastSeen = maxD (sigs.map (fun s => s.timestamp)) := by
  rcases sigs with _ | ⟨s0, tl⟩
  · rw [groupByDescription, groupByKey] at hmulti
    simp at hmulti
  · have hiff := @hasConflict_iff cfg now
      (groupByDescription (s0 :: tl)) hmulti
    have hc : ¬ hasConflict cfg now (groupByDescription (s0 :: tl)) = true := by
      intro h
      have := hiff.mp h
      rw [secondHighest, topHighest] at hbelow
      exact absurd this (not_le.mpr hbelow)
    rw [aggregateGroup_of_min hmin, if_neg (fun h => hc h.2)]
    obtain ⟨p, hp, hcount, hconf, hfirst, hlast, -⟩ :=
      @buildPreference_spec cfg now (s0 :: tl) (by simp)
    exact ⟨p, by rw [hp], hcount, hconf, hfirst, hlast⟩

/-- Witness for the amended C4 at the concrete four-signal input. -/
theorem C4_witness :
    ∃ p, aggregateGroup DefaultConfig 100 exC4 = (some p, none) ∧
      p.signalCount = exC4.length ∧
      p.confidence = calculateGroupScore DefaultConfig 100 exC4 ∧
      p.firstSeen = minD (exC4.map (fun s => s.timestamp)) ∧
      p.lastSeen = maxD (exC4.map (fun s => s.timestamp)) :=
  C4_absorbs_minority DefaultConfig 100 exC4 (by decide) (by decide)
    (by
      simp +decide only [secondHighest, topHighest, cohortScores,
        groupByDescription, groupByKey, insertGrouped, exC4, mkSig, maxD, minD,
        calculateGroupScore, frequencyToConfidence, recencyModifier,
        mostRecentTs, StrengthExplicit, DefaultConfig, List.foldl, List.any,
        List.map, List.length, List.erase]
      norm_num [beq_iff_eq, List.erase])


/-! ## Claim C8 -/

/-- Counterexample to C8: on a time-unsorted input, `timeRange` is the pair
(first signal's timestamp, last signal's timestamp), not (min, max): here the
range starts at 5 although the minimum timestamp is 3. -/
theorem C8_counterexample :
    (Aggregate DefaultConfig 10
      [mkSig "tooling" "a" "v" "inferred" 5,
       mkSig "tooling" "b" "v" "inferred" 3]).timeRange =
      { start := 5, stop := 3 } ∧
    minD ([mkSig "tooling" "a" "v" "inferred" 5,
       mkSig "tooling" "b" "v" "inferred" 3].map (fun s => s.timestamp)) = 3 ∧
    maxD ([mkSig "tooling" "a" "v" "inferred" 5,
       mkSig "tooling" "b" "v" "inferred" 3].map (fun s => s.timestamp)) = 5 ∧
    (5 : ℚ) ≠ 3 := by
  refine ⟨rfl, ?_, ?_, by norm_num⟩ <;>
    simp +decide only [minD, maxD, mkSig, List.map, List.foldl]

/-- C8 (amended): `timeRange` is (first signal's timestamp, last signal's
timestamp); since the pipeline supplies signals sorted ascending by
timestamp, on such inputs it equals (min timestamp, max timestamp) over all
input signals — including signals of groups that are later discarded, since
it is computed from the raw input before grouping. -/
theorem C8_timeRange (cfg : Config) (now : ℚ) (s0 : Signal) (tl : List Signal)
    (hsorted : List.Sorted (fun a b : Signal => a.timestamp ≤ b.timestamp)
      (s0 :: tl)) :
    (Aggregate cfg now (s0 :: tl)).timeRange =
      { start := minD ((s0 :: tl).map (fun s => s.timestamp)),
        stop := maxD ((s0 :: tl).map (fun s => s.timestamp)) } := by
  rw [Aggregate_timeRange_cons]
  have hmin : minD ((s0 :: tl).map (fun s => s.timestamp)) = s0.timestamp := by
    apply minD_eq (List.mem_map_of_mem _ (List.mem_cons_self _ _))
    intro q hq
    rcases List.mem_map.mp hq with ⟨x, hx, rfl⟩
    rcases List.mem_cons.mp hx with rfl | hx'
    · exact le_rfl
    · exact List.rel_of_sorted_cons hsorted x hx'
  have hlast := sorted_rel_getLastD
    (r := fun a b : Signal => a.timestamp ≤ b.timestamp)
    (fun hab hbc => le_trans hab hbc) (fun _ => le_rfl) hsorted
  have hmax : maxD ((s0 :: tl).map (fun s => s.timestamp)) =
      (tl.getLastD s0).timestamp := by
    apply maxD_eq
      (List.mem_map_of_mem _ (List.getLastD_mem_cons tl s0))
    intro q hq
    rcases List.mem_map.mp hq with ⟨x, hx, rfl⟩
    exact hlast x hx
  rw [hmin, hmax]

/-- Witness for the amended C8 on a sorted concrete input. -/
theorem C8_witness :
    (Aggregate DefaultConfig 10
      [mkSig "tooling" "a" "v" "inferred" 3,
       mkSig "tooling" "b" "v" "inferred" 5]).timeRange =
      { start := minD ([mkSig "tooling" "a" "v" "inferred" 3,
          mkSig "tooling" "b" "v" "inferred" 5].map (fun s => s.timestamp)),
        stop := maxD ([mkSig "tooling" "a" "v" "inferred" 3,
          mkSig "tooling" "b" "v" "inferred" 5].map (fun s => s.timestamp)) } :=
  C8_timeRange DefaultConfig 10 _ _
    (by
      refine List.sorted_cons.mpr ⟨?_, List.sorted_singleton _⟩
      intro b hb
      simp only [List.mem_singleton] at hb
      subst hb
      norm_num [mkSig])


/-! ## Claim C9 support: injectivity of the `"::"` group key on valid
categories -/

theorem string_data_inj {s t : String} (h : s.data = t.data) : s = t := by
  cases s with
  | mk d₁ =>
    cases t with
    | mk d₂ => exact congrArg String.mk h

theorem colons_append_inj : ∀ (l₁ l₂ r₁ r₂ : List Char), ':' ∉ l₁ → ':' ∉ l₂ →
    l₁ ++ ':' :: ':' :: r₁ = l₂ ++ ':' :: ':' :: r₂ → l₁ = l₂ ∧ r₁ = r₂ := by
  intro l₁
  induction l₁ with
  | nil =>
    intro l₂ r₁ r₂ _ h₂ h
    cases l₂ with
    | nil =>
      simp only [List.nil_append, List.cons.injEq, true_and] at h
      exact ⟨rfl, h⟩
    | cons b bs =>
      simp only [List.nil_append, List.cons_append, List.cons.injEq] at h
      exfalso
      apply h₂
      rw [← h.1]
      exact List.mem_cons_self _ _
  | cons a as ih =>
    intro l₂ r₁ r₂ h₁ h₂ h
    cases l₂ with
    | nil =>
      simp only [List.cons_append, List.nil_append, List.cons.injEq] at h
      exfalso
      apply h₁
      rw [← h.1]
      exact List.mem_cons_self _ _
    | cons b bs =>
      simp only [List.cons_append, List.cons.injEq] at h
      obtain ⟨hab, h'⟩ := h
      have h₁' : ':' ∉ as := fun hm => h₁ (List.mem_cons_of_mem _ hm)
      have h₂' : ':' ∉ bs := fun hm => h₂ (List.mem_cons_of_mem _ hm)
      obtain ⟨hl, hr⟩ := ih bs r₁ r₂ h₁' h₂' h'
      exact ⟨by rw [hab, hl], hr⟩

theorem valid_no_colon {c : String} (h : IsValidCategory c) : ':' ∉ c.data := by
  have h' : c ∈ validCategories := h
  simp only [validCategories, List.mem_cons, List.not_mem_nil, or_false] at h'
  rcases h' with rfl | rfl | rfl | rfl | rfl | rfl | rfl <;> decide

theorem groupKey_inj {s₁ s₂ : Signal} (h₁ : IsValidCategory s₁.category)
    (h₂ : IsValidCategory s₂.category) (h : groupKey s₁ = groupKey s₂) :
    s₁.category = s₂.category ∧ s₁.title = s₂.title := by
  have hd := congrArg String.data h
  rw [groupKey, groupKey, String.data_append, String.data_append,
    String.data_append, String.data_append] at hd
  have hcolon : ("::" : String).data = [':', ':'] := rfl
  rw [hcolon, List.append_assoc, List.append_assoc] at hd
  simp only [List.cons_append, List.nil_append] at hd
  obtain ⟨hc, ht⟩ := colons_append_inj _ _ _ _
    (valid_no_colon h₁) (valid_no_colon h₂) hd
  exact ⟨string_data_inj hc, string_data_inj ht⟩

/-! ## Claim C9 -/

/-- C9: grouping is a partition keyed by the exact `(category, title)` pair:
`analyzedCount` equals the input length; flattening the groups is a
permutation of the input (no signal dropped or duplicated); group keys are
distinct (each signal is in exactly one group); each group is the in-order
filter of the input by its key (insertion order preserved); and — for inputs
whose categories are valid, as the data model requires — two signals share a
group exactly when both their category and their title agree. -/
theorem C9_grouping_partition (sigs : List Signal)
    (hv : ∀ s ∈ sigs, IsValidCategory s.category) :
    (∀ (cfg : Config) (now : ℚ),
      (Aggregate cfg now sigs).analyzedMessages = sigs.length) ∧
    ((groupSignals sigs).map Prod.snd).flatten.Perm sigs ∧
    ((groupSignals sigs).map Prod.fst).Nodup ∧
    (∀ e ∈ groupSignals sigs, e.2 = sigs.filter (fun s => groupKey s == e.1)) ∧
    (∀ s₁ ∈ sigs, ∀ s₂ ∈ sigs,
      ((∃ e ∈ groupSignals sigs, s₁ ∈ e.2 ∧ s₂ ∈ e.2) ↔
        (s₁.category = s₂.category ∧ s₁.title = s₂.title))) := by
  refine ⟨fun cfg now => rfl, flatten_groupByKey_perm groupKey sigs,
    keys_nodup groupKey sigs, fun e he => entry_eq_filter he, ?_⟩
  intro s₁ h₁ s₂ h₂
  rw [groupSignals, same_group_iff h₁ h₂]
  constructor
  · exact fun h => groupKey_inj (hv s₁ h₁) (hv s₂ h₂) h
  · rintro ⟨hc, ht⟩
    rw [groupKey, groupKey, hc, ht]

/-- Concrete input for the C9 witness. -/
def exC9 : List Signal :=
  [mkSig "tooling" "pkg-mgr" "pnpm" "explicit" 1,
   mkSig "code_style" "indent" "tabs" "inferred" 2,
   mkSig "tooling" "pkg-mgr" "npm" "inferred" 3]

/-- Witness for C9 at a concrete three-signal input. -/
theorem C9_witness :
    (∀ (cfg : Config) (now : ℚ),
      (Aggregate cfg now exC9).analyzedMessages = exC9.length) ∧
    ((groupSignals exC9).map Prod.snd).flatten.Perm exC9 ∧
    ((groupSignals exC9).map Prod.fst).Nodup ∧
    (∀ e ∈ groupSignals exC9, e.2 = exC9.filter (fun s => groupKey s == e.1)) ∧
    (∀ s₁ ∈ exC9, ∀ s₂ ∈ exC9,
      ((∃ e ∈ groupSignals exC9, s₁ ∈ e.2 ∧ s₂ ∈ e.2) ↔
        (s₁.category = s₂.category ∧ s₁.title = s₂.title))) :=
  C9_grouping_partition exC9 (by decide)


/-! ## Claim C2 -/

/-- Concrete input for C2: four signals forming two groups, each of which
resolves to a Conflict (two equally-supported cohorts per group). -/
def exC2 : List Signal :=
  [mkSig "code_style" "indent" "tabs" "inferred" 100,
   mkSig "code_style" "indent" "spaces" "inferred" 100,
   mkSig "tooling" "pkg-mgr" "npm" "inferred" 100,
   mkSig "tooling" "pkg-mgr" "pnpm" "inferred" 100]

/-- The same grouping map as `groupSignals exC2`, visited in the opposite
iteration order — also a legal order for a Go `range` over the map. -/
def exC2GroupsRev : List (String × List Signal) :=
  [("tooling::pkg-mgr",
    [mkSig "tooling" "pkg-mgr" "npm" "inferred" 100,
     mkSig "tooling" "pkg-mgr" "pnpm" "inferred" 100]),
   ("code_style::indent",
    [mkSig "code_style" "indent" "tabs" "inferred" 100,
     mkSig "code_style" "indent" "spaces" "inferred" 100])]

/-- C2 fails on the code: `Aggregate` is the grouping followed by
`aggregateFromGroups` in map iteration order, and two legal iteration orders
of the same grouping map (`exC2GroupsRev` is a permutation of
`groupSignals exC2`, i.e. the same map) produce the two Conflicts in
different orders — the code never re-sorts the Conflicts sequence, so
distinct runs of the randomized Go map `range` yield observably different
`FlavorProfile`s. -/
theorem C2_counterexample :
    Aggregate DefaultConfig 100 exC2 =
      aggregateFromGroups DefaultConfig 100 exC2 (groupSignals exC2) ∧
    exC2GroupsRev.Perm (groupSignals exC2) ∧
    ((aggregateFromGroups DefaultConfig 100 exC2
        (groupSignals exC2)).conflicts.map (fun c => c.category) =
      ["code_style", "tooling"]) ∧
    ((aggregateFromGroups DefaultConfig 100 exC2
        exC2GroupsRev).conflicts.map (fun c => c.category) =
      ["tooling", "code_style"]) ∧
    (aggregateFromGroups DefaultConfig 100 exC2 (groupSignals exC2)).conflicts ≠
      (aggregateFromGroups DefaultConfig 100 exC2 exC2GroupsRev).conflicts := by
  have hg : groupSignals exC2 =
      [("code_style::indent",
        [mkSig "code_style" "indent" "tabs" "inferred" 100,
         mkSig "code_style" "indent" "spaces" "inferred" 100]),
       ("tooling::pkg-mgr",
        [mkSig "tooling" "pkg-mgr" "npm" "inferred" 100,
         mkSig "tooling" "pkg-mgr" "pnpm" "inferred" 100])] := by
    simp +decide only [groupSignals, groupByKey, groupKey, insertGrouped, exC2,
      mkSig, List.foldl]
  have h₁ : ((aggregateFromGroups DefaultConfig 100 exC2
      (groupSignals exC2)).conflicts.map (fun c => c.category)) =
      ["code_style", "tooling"] := by
    rw [hg]
    simp +decide only [aggregateFromGroups, aggregateGroup, groupByDescription,
      groupByKey, insertGrouped, exC2, mkSig, hasConflict, cohortScores,
      calculateGroupScore, frequencyToConfidence, recencyModifier,
      mostRecentTs, StrengthExplicit, DefaultConfig, List.foldl, List.any,
      buildConflict, conflictStep, buildPreference, sortByTimestampDesc,
      List.insertionSort, List.orderedInsert, List.map, List.length,
      List.reverse, List.getLastD]
    norm_num [beq_iff_eq]
  have h₂ : ((aggregateFromGroups DefaultConfig 100 exC2
      exC2GroupsRev).conflicts.map (fun c => c.category)) =
      ["tooling", "code_style"] := by
    simp +decide only [aggregateFromGroups, aggregateGroup, groupByDescription,
      groupByKey, insertGrouped, exC2, exC2GroupsRev, mkSig, hasConflict,
      cohortScores, calculateGroupScore, frequencyToConfidence,
      recencyModifier, mostRecentTs, StrengthExplicit, DefaultConfig,
      List.foldl, List.any, buildConflict, conflictStep, buildPreference,
      sortByTimestampDesc, List.insertionSort, List.orderedInsert, List.map,
      List.length, List.reverse, List.getLastD]
    norm_num [beq_iff_eq]
  refine ⟨rfl, ?_, h₁, h₂, ?_⟩
  · rw [hg]
    exact List.Perm.swap _ _ []
  · intro h
    rw [h] at h₁
    exact absurd (h₁.symm.trans h₂) (by decide)


end AutoFlavor
